import Mathlib

set_option autoImplicit false
set_option maxHeartbeats 1000000

/-!
Shallow embedding of the kinetics core of
`reversible_reaction_simulator_with_custom_font.py`: the ODE right-hand
side `reaction_rate` defined inside the run-simulation button handler, and
the handler itself (empty-species-list check, initial concentration vector,
`np.linspace(0, time_end, 1000)`, `scipy.integrate.odeint`).

Python floats are embedded as rationals (exact arithmetic), so tolerance
clauses of the spec (`1e-6`) hold as exact equalities.  Fallible steps
(the `ZeroDivisionError` from `kf / K` at `K = 0`, the `st.error` rejection
of an empty species list) are embedded as `Except`.
-/

/-- A species record as accumulated by the UI handlers:
a dict of the form with keys name and initial. -/
structure Species where
  name : String
  initial : ℚ
  deriving DecidableEq, Repr

/-- The Streamlit session state that the run-simulation handler and the
`reaction_rate` closure read: the ordered lists
`st.session_state.reactants` and `st.session_state.products`. -/
structure SessionState where
  reactants : List Species
  products : List Species
  deriving DecidableEq, Repr

/-- Errors surfaced by the embedded computation.  `domainError` embeds the
Python `ZeroDivisionError` raised by `kr = kf / K` when `K = 0` (the spec's
`DomainError`); `invalidArgument` embeds the `st.error` rejection of an
empty species list (the spec's `InvalidArgument`). -/
inductive SimError where
  | domainError
  | invalidArgument
  deriving DecidableEq, Repr

instance {ε α : Type} [DecidableEq ε] [DecidableEq α] : DecidableEq (Except ε α)
  | .error e, .error f =>
    if h : e = f then .isTrue (congrArg Except.error h)
    else .isFalse (fun hh => h (by injection hh))
  | .error _, .ok _ => .isFalse (fun hh => Except.noConfusion hh)
  | .ok _, .error _ => .isFalse (fun hh => Except.noConfusion hh)
  | .ok a, .ok b =>
    if h : a = b then .isTrue (congrArg Except.ok h)
    else .isFalse (fun hh => h (by injection hh))

/-- The ODE right-hand side `reaction_rate(C, t, kf, K)` defined inside the
run-simulation handler.  The species counts are not parameters: the Python
closure reads `len(st.session_state.reactants)` and
`len(st.session_state.products)` from the enclosing session state, embedded
here as the explicit `s` argument.  `C[:n_reactants]` / `C[n_reactants:]`
are `take` / `drop`; `np.prod` of an empty slice is `1`; the derivative
list is built by appending `-forward_rate + reverse_rate` once per
reactant and `forward_rate - reverse_rate` once per product.  The division
`kf / K` raises `ZeroDivisionError` when `K = 0`, embedded as
`.error .domainError`; `t` is never read. -/
def reaction_rate (s : SessionState) (C : List ℚ) (t : ℚ) (kf K : ℚ) :
    Except SimError (List ℚ) :=
  if K = 0 then .error .domainError
  else
    let kr := kf / K
    let n_reactants := s.reactants.length
    let n_products := s.products.length
    let reactants_conc := C.take n_reactants
    let products_conc := C.drop n_reactants
    let forward_rate := kf * reactants_conc.prod
    let reverse_rate := kr * products_conc.prod
    .ok (List.replicate n_reactants (-forward_rate + reverse_rate) ++
         List.replicate n_products (forward_rate - reverse_rate))

/-- Embedding of `np.linspace(start, stop, num)`: `num` evenly spaced
samples from `start` to `stop`, both endpoints included
(`start + (stop - start) * i / (num - 1)` for `i = 0, …, num - 1`). -/
def linspace (start stop : ℚ) (num : ℕ) : List ℚ :=
  (List.range num).map (fun i : ℕ => start + (stop - start) * (i : ℚ) / ((num : ℚ) - 1))

/-- Integration loop of the embedded solver: from state `y` at time
`tprev`, produce one row per remaining sample time by an explicit Euler
step between consecutive sample times, propagating any error raised by the
right-hand side.  Together with `odeint` below this models
`scipy.integrate.odeint` at the fidelity the spec's solver contract fixes:
an IVP solver driven by the derivative callback that returns one
dense-output row per requested sample time (first row the initial state)
and propagates callback failures. -/
def odeintAux (f : List ℚ → ℚ → Except SimError (List ℚ)) :
    List ℚ → ℚ → List ℚ → Except SimError (List (List ℚ))
  | _, _, [] => .ok []
  | y, tprev, tcur :: rest =>
    match f y tprev with
    | .error e => .error e
    | .ok dy =>
      let ynext := List.zipWith (fun a b => a + (tcur - tprev) * b) y dy
      match odeintAux f ynext tcur rest with
      | .error e => .error e
      | .ok rows => .ok (ynext :: rows)

/-- Embedding of `odeint(f, y0, t, args)`: one output row per entry of the
time list, the first row being `y0` itself. -/
def odeint (f : List ℚ → ℚ → Except SimError (List ℚ)) (y0 : List ℚ) :
    List ℚ → Except SimError (List (List ℚ))
  | [] => .ok []
  | t0 :: rest =>
    match odeintAux f y0 t0 rest with
    | .error e => .error e
    | .ok rows => .ok (y0 :: rows)

/-- The body of the run-simulation button handler: reject with `st.error`
when either species list is empty (embedded as `.error .invalidArgument`),
otherwise assemble `initial_concentrations` (reactant initials then product
initials), build `t = np.linspace(0, time_end, 1000)` and integrate
`reaction_rate` with `args = (kf, K)`. -/
def run_simulation (s : SessionState) (kf K time_end : ℚ) :
    Except SimError (List (List ℚ)) :=
  if s.reactants = [] ∨ s.products = [] then .error .invalidArgument
  else
    let initial_concentrations :=
      s.reactants.map Species.initial ++ s.products.map Species.initial
    let t := linspace 0 time_end 1000
    odeint (fun C τ => reaction_rate s C τ kf K) initial_concentrations t

/-- A concrete session used by the concrete-input theorems: one reactant
`A` with initial concentration `1`, one product `B` with initial
concentration `0` (the spec's concrete scenario). -/
def sAB : SessionState :=
  { reactants := [{ name := "A", initial := 1 }]
    products := [{ name := "B", initial := 0 }] }

/-- A second concrete session with the same species counts as `sAB` but
different records, used to witness determinism across states. -/
def sXY : SessionState :=
  { reactants := [{ name := "X", initial := 5 }]
    products := [{ name := "Y", initial := 7 }] }

/-- A concrete session in which the same two species of `sAB` are instead
both registered as reactants, so the captured counts differ from `sAB`. -/
def sABr : SessionState :=
  { reactants := [{ name := "A", initial := 1 }, { name := "B", initial := 0 }]
    products := [] }

/-- A concrete session whose reactant list is empty. -/
def sNilB : SessionState :=
  { reactants := []
    products := [{ name := "B", initial := 0 }] }

/-- With a nonzero equilibrium constant the right-hand side never fails and
returns the mass-action derivative list. -/
lemma reaction_rate_ok (s : SessionState) (C : List ℚ) (t kf K : ℚ) (hK : K ≠ 0) :
    reaction_rate s C t kf K =
      .ok (List.replicate s.reactants.length
             (-(kf * (C.take s.reactants.length).prod) +
               kf / K * (C.drop s.reactants.length).prod) ++
           List.replicate s.products.length
             (kf * (C.take s.reactants.length).prod -
               kf / K * (C.drop s.reactants.length).prod)) := by
  simp [reaction_rate, hK]

/-- With `K = 0` the division `kf / K` fails on every input. -/
lemma reaction_rate_K_zero (s : SessionState) (C : List ℚ) (t kf : ℚ) :
    reaction_rate s C t kf 0 = .error .domainError := by
  simp [reaction_rate]

/-- Sum of one Euler step: the step adds `h` times the sum of the
derivative entries. -/
lemma zipWith_step_sum (h : ℚ) :
    ∀ (y dy : List ℚ), dy.length = y.length →
      (List.zipWith (fun a b => a + h * b) y dy).sum = y.sum + h * dy.sum
  | [], [], _ => by simp
  | [], _ :: _, hl => by simp at hl
  | _ :: _, [], hl => by simp at hl
  | a :: y, b :: dy, hl => by
    have ih := zipWith_step_sum h y dy (by simpa using hl)
    simp only [List.zipWith_cons_cons, List.sum_cons, ih]
    ring

/-- An Euler step against an all-zero derivative list leaves the state
unchanged. -/
lemma zipWith_step_zero_rhs (h : ℚ) :
    ∀ (y dy : List ℚ), y.length ≤ dy.length → (∀ b ∈ dy, b = 0) →
      List.zipWith (fun a b => a + h * b) y dy = y
  | [], _, _, _ => by simp
  | _ :: _, [], hl, _ => by simp at hl
  | a :: y, b :: dy, hl, hz => by
    have hb : b = 0 := hz b (List.mem_cons_self _ _)
    have ih := zipWith_step_zero_rhs h y dy (by simpa using hl)
      (fun x hx => hz x (List.mem_cons_of_mem _ hx))
    simp [hb, ih]

/-- Zipping with the left projection recovers the left list when the right
list is at least as long (the shape an Euler step of width zero takes). -/
lemma zipWith_left :
    ∀ (y dy : List ℚ), y.length ≤ dy.length →
      List.zipWith (fun a _ => a) y dy = y
  | [], _, _ => by simp
  | _ :: _, [], hl => by simp at hl
  | a :: y, b :: dy, hl => by
    have ih := zipWith_left y dy (by simpa using hl)
    simp [ih]

/-- Main invariant lemma for the integration loop: any predicate preserved
by single Euler steps holds of every produced row, the loop succeeds, and
it produces exactly one row per remaining sample time. -/
lemma odeintAux_inv (f : List ℚ → ℚ → Except SimError (List ℚ))
    (P : List ℚ → Prop)
    (hf : ∀ y t t', P y → ∃ dy, f y t = .ok dy ∧
            P (List.zipWith (fun a b => a + (t' - t) * b) y dy))
    (ts : List ℚ) :
    ∀ (y : List ℚ) (tprev : ℚ), P y →
      ∃ rows, odeintAux f y tprev ts = .ok rows ∧ rows.length = ts.length ∧
        ∀ r ∈ rows, P r := by
  induction ts with
  | nil => exact fun y tprev _ => ⟨[], rfl, rfl, by simp⟩
  | cons tcur rest ih =>
    intro y tprev hy
    obtain ⟨dy, hdy, hP⟩ := hf y tprev tcur hy
    obtain ⟨rows, hrows, hlen, hall⟩ := ih _ tcur hP
    refine ⟨List.zipWith (fun a b => a + (tcur - tprev) * b) y dy :: rows, ?_, ?_, ?_⟩
    · simp [odeintAux, hdy, hrows]
    · simp [hlen]
    · intro r hr
      rcases List.mem_cons.mp hr with h | h
      · exact h ▸ hP
      · exact hall r h

/-- `odeint`-level version of `odeintAux_inv`: the first row is the initial
state itself. -/
lemma odeint_inv (f : List ℚ → ℚ → Except SimError (List ℚ))
    (P : List ℚ → Prop)
    (hf : ∀ y t t', P y → ∃ dy, f y t = .ok dy ∧
            P (List.zipWith (fun a b => a + (t' - t) * b) y dy))
    (ts : List ℚ) (y0 : List ℚ) (hy : P y0) :
    ∃ rows, odeint f y0 ts = .ok rows ∧ rows.length = ts.length ∧
      ∀ r ∈ rows, P r := by
  cases ts with
  | nil => exact ⟨[], rfl, rfl, by simp⟩
  | cons t0 rest =>
    obtain ⟨rows, hrows, hlen, hall⟩ := odeintAux_inv f P hf rest y0 t0 hy
    refine ⟨y0 :: rows, by simp [odeint, hrows], by simp [hlen], ?_⟩
    intro r hr
    rcases List.mem_cons.mp hr with h | h
    · exact h ▸ hy
    · exact hall r h

/-- When every remaining sample time equals the current time, every Euler
step has width zero and the loop repeats the current state. -/
lemma odeintAux_all_eq (f : List ℚ → ℚ → Except SimError (List ℚ))
    (y : List ℚ) (c : ℚ) (dy : List ℚ)
    (hdy : f y c = .ok dy) (hlen : y.length ≤ dy.length) :
    ∀ ts : List ℚ, (∀ t ∈ ts, t = c) →
      odeintAux f y c ts = .ok (List.replicate ts.length y) := by
  intro ts
  induction ts with
  | nil => intro _; rfl
  | cons tcur rest ih =>
    intro hmem
    have hc : tcur = c := hmem tcur (by simp)
    subst hc
    have hstep : List.zipWith (fun a _ => a) y dy = y := zipWith_left y dy hlen
    have ihr := ih (fun t ht => hmem t (List.mem_cons_of_mem _ ht))
    simp [odeintAux, hdy, hstep, ihr, List.replicate_succ]

/-- `odeint` over a constant time list returns the initial state at every
sample. -/
lemma odeint_all_eq (f : List ℚ → ℚ → Except SimError (List ℚ))
    (y : List ℚ) (c : ℚ) (dy : List ℚ)
    (hdy : f y c = .ok dy) (hlen : y.length ≤ dy.length) :
    ∀ ts : List ℚ, (∀ t ∈ ts, t = c) →
      odeint f y ts = .ok (List.replicate ts.length y) := by
  intro ts hmem
  cases ts with
  | nil => rfl
  | cons t0 rest =>
    have h0 : t0 = c := hmem t0 (by simp)
    subst h0
    have haux := odeintAux_all_eq f y t0 dy hdy hlen rest
      (fun t ht => hmem t (List.mem_cons_of_mem _ ht))
    simp [odeint, haux, List.replicate_succ]

/-- When the right-hand side is identically the all-zero list, the loop
repeats the initial state at every sample. -/
lemma odeintAux_zero_rhs (f : List ℚ → ℚ → Except SimError (List ℚ)) (n : ℕ)
    (hf : ∀ y t, f y t = .ok (List.replicate n 0)) :
    ∀ (ts : List ℚ) (y : List ℚ) (tprev : ℚ), y.length ≤ n →
      odeintAux f y tprev ts = .ok (List.replicate ts.length y) := by
  intro ts
  induction ts with
  | nil => intro y tprev _; rfl
  | cons tcur rest ih =>
    intro y tprev hy
    have hstep : List.zipWith (fun a b => a + (tcur - tprev) * b) y
        (List.replicate n 0) = y :=
      zipWith_step_zero_rhs _ y _ (by simpa using hy)
        (fun b hb => List.eq_of_mem_replicate hb)
    simp [odeintAux, hf y tprev, hstep, ih y tcur hy, List.replicate_succ]

/-- `odeint`-level version of `odeintAux_zero_rhs`. -/
lemma odeint_zero_rhs (f : List ℚ → ℚ → Except SimError (List ℚ)) (n : ℕ)
    (hf : ∀ y t, f y t = .ok (List.replicate n 0))
    (y0 : List ℚ) (hy : y0.length ≤ n) :
    ∀ ts : List ℚ, odeint f y0 ts = .ok (List.replicate ts.length y0) := by
  intro ts
  cases ts with
  | nil => rfl
  | cons t0 rest =>
    simp [odeint, odeintAux_zero_rhs f n hf rest y0 t0 hy, List.replicate_succ]

/-- If the right-hand side fails at the initial state, `odeint` over a time
list with at least two samples propagates that failure. -/
lemma odeint_error_of_rhs_error (f : List ℚ → ℚ → Except SimError (List ℚ))
    (y0 : List ℚ) (e : SimError) (hf : ∀ t, f y0 t = .error e) :
    ∀ ts : List ℚ, 2 ≤ ts.length → odeint f y0 ts = .error e := by
  intro ts h2
  match ts with
  | [] => simp at h2
  | [t0] => simp at h2
  | t0 :: t1 :: rest => simp [odeint, odeintAux, hf t0]

lemma linspace_length (a b : ℚ) (num : ℕ) : (linspace a b num).length = num := by
  rw [linspace, List.length_map, List.length_range]

lemma linspace_getD (a b : ℚ) (num : ℕ) (i : ℕ) (hi : i < num) :
    (linspace a b num).getD i 0 = a + (b - a) * i / ((num : ℚ) - 1) := by
  rw [linspace, List.getD_eq_getElem?_getD, List.getElem?_map,
    List.getElem?_range hi]
  rfl

/-- A zero-length horizon gives a constant time list. -/
lemma linspace_zero_zero (num : ℕ) : linspace 0 0 num = List.replicate num 0 := by
  rw [linspace]
  have h : (fun i : ℕ => (0 : ℚ) + (0 - 0) * (i : ℚ) / ((num : ℚ) - 1)) =
      fun _ : ℕ => (0 : ℚ) := by
    funext i
    simp
  rw [h, List.map_const', List.length_range]

/-- C10: the ODE right-hand side is autonomous: `reaction_rate` never reads
its time argument, so for every concentration vector, rate constants and
pair of times the returned derivative vector is the same. -/
theorem C10_reaction_rate_autonomous (s : SessionState) (C : List ℚ)
    (kf K t₁ t₂ : ℚ) :
    reaction_rate s C t₁ kf K = reaction_rate s C t₂ kf K := rfl

/-- C9 (counterexample): `reaction_rate` is not a function of its explicit
arguments alone.  With the same `C = [1, 2]`, `t = 0`, `kf = 1`, `K = 1`
but two different enclosing session states (one reactant and one product
versus two reactants and no product) the returned derivative vectors
differ, because the closure reads the species counts from the enclosing
state. -/
theorem C9_counterexample :
    reaction_rate sAB [1, 2] 0 1 1 ≠ reaction_rate sABr [1, 2] 0 1 1 := by
  have h1 : reaction_rate sAB [1, 2] 0 1 1 = .ok [1, -1] := by
    norm_num [reaction_rate, sAB]
  have h2 : reaction_rate sABr [1, 2] 0 1 1 = .ok [-1, -1] := by
    norm_num [reaction_rate, sABr, List.replicate]
  rw [h1, h2]
  intro hcontra
  have := (Except.ok.inj hcontra)
  norm_num at this

/-- C9 (amended): `reaction_rate` has no side effects and is a
deterministic function of its explicit arguments together with the species
counts captured from the enclosing session state: any two states with the
same reactant count and the same product count give the same derivative
vector at the same `C`, `kf`, `K` (and any times). -/
theorem C9_amended_pure_given_counts (s₁ s₂ : SessionState) (C : List ℚ)
    (t₁ t₂ kf K : ℚ)
    (hr : s₁.reactants.length = s₂.reactants.length)
    (hp : s₁.products.length = s₂.products.length) :
    reaction_rate s₁ C t₁ kf K = reaction_rate s₂ C t₂ kf K := by
  simp only [reaction_rate, hr, hp]

theorem C9_amended_witness :
    sAB.reactants.length = sXY.reactants.length ∧
    sAB.products.length = sXY.products.length ∧
    reaction_rate sAB [1, 2] 0 1 1 = reaction_rate sXY [1, 2] 3 1 1 :=
  ⟨rfl, rfl, C9_amended_pure_given_counts sAB sXY [1, 2] 0 3 1 1 rfl rfl⟩

/-- C8: a run-simulation attempt with an empty reactant list or an empty
product list is rejected (the `st.error` branch, the spec's
`InvalidArgument`) and no trajectory is computed. -/
theorem C8_empty_species_list_rejected (s : SessionState) (kf K d : ℚ)
    (h : s.reactants = [] ∨ s.products = []) :
    run_simulation s kf K d = .error .invalidArgument := by
  rw [run_simulation, if_pos h]

theorem C8_witness :
    (sNilB.reactants = [] ∨ sNilB.products = []) ∧
    run_simulation sNilB 1 1 10 = .error .invalidArgument :=
  ⟨Or.inl rfl, C8_empty_species_list_rejected sNilB 1 1 10 (Or.inl rfl)⟩

/-- C2: a run-simulation call with `K = 0` and nonempty species lists fails
with the `DomainError` (the `ZeroDivisionError` from `kf / K`), for every
`kf`, every set of initial concentrations and every duration; it does not
return a trajectory, default silently, or fail with a different error. -/
theorem C2_K_zero_fails_with_domain_error (s : SessionState) (kf d : ℚ)
    (hr : s.reactants ≠ []) (hp : s.products ≠ []) :
    run_simulation s kf 0 d = .error .domainError := by
  have hcond : ¬(s.reactants = [] ∨ s.products = []) := by
    rintro (h | h)
    exacts [hr h, hp h]
  rw [run_simulation, if_neg hcond]
  exact odeint_error_of_rhs_error _ _ .domainError
    (fun t => reaction_rate_K_zero s _ t kf)
    (linspace 0 d 1000)
    (by rw [linspace_length]; norm_num)

theorem C2_witness :
    sAB.reactants ≠ [] ∧ sAB.products ≠ [] ∧
    run_simulation sAB 1 0 10 = .error .domainError :=
  ⟨by simp [sAB], by simp [sAB],
    C2_K_zero_fails_with_domain_error sAB 1 10 (by simp [sAB]) (by simp [sAB])⟩

/-- C6: at any state where the forward rate equals the reverse rate, every
entry of the derivative vector returned by `reaction_rate` is zero. -/
theorem C6_equilibrium_zero_derivative (s : SessionState) (C : List ℚ)
    (t kf K : ℚ) (hK : 0 < K)
    (heq : kf * (C.take s.reactants.length).prod =
           kf / K * (C.drop s.reactants.length).prod) :
    ∃ dvec, reaction_rate s C t kf K = .ok dvec ∧ ∀ x ∈ dvec, x = 0 := by
  refine ⟨_, reaction_rate_ok s C t kf K (ne_of_gt hK), ?_⟩
  intro x hx
  rcases List.mem_append.mp hx with h | h
  · rw [List.eq_of_mem_replicate h, heq]
    ring
  · rw [List.eq_of_mem_replicate h, heq]
    ring

theorem C6_witness :
    (0 : ℚ) < 1 ∧
    (1 : ℚ) * (([1, 1] : List ℚ).take sAB.reactants.length).prod =
      1 / 1 * (([1, 1] : List ℚ).drop sAB.reactants.length).prod ∧
    ∃ dvec, reaction_rate sAB [1, 1] 0 1 1 = .ok dvec ∧ ∀ x ∈ dvec, x = 0 :=
  ⟨by norm_num, by norm_num [sAB],
    C6_equilibrium_zero_derivative sAB [1, 1] 0 1 1 (by norm_num)
      (by norm_num [sAB])⟩

/-- With nonempty species lists the handler is exactly the integration of
`reaction_rate` from the assembled initial concentrations over
`linspace 0 time_end 1000`. -/
lemma run_simulation_eq (s : SessionState) (kf K d : ℚ)
    (hcond : ¬(s.reactants = [] ∨ s.products = [])) :
    run_simulation s kf K d =
      odeint (fun C τ => reaction_rate s C τ kf K)
        (s.reactants.map Species.initial ++ s.products.map Species.initial)
        (linspace 0 d 1000) := by
  rw [run_simulation, if_neg hcond]

/-- `getD` of a replicated list below its length. -/
lemma getD_replicate_lt (n : ℕ) (a : ℚ) (i : ℕ) (hi : i < n) :
    (List.replicate n a).getD i 0 = a := by
  rw [List.getD_eq_getElem?_getD, List.getElem?_replicate_of_lt hi]
  rfl

/-- C1: for a concentration vector of length
`n_reactants + n_products`, `kf ≥ 0` and `K > 0`, `reaction_rate` returns a
derivative vector of the same length in which, with `kr = kf / K`,
`forward_rate = kf * prod(reactant entries)`,
`reverse_rate = kr * prod(product entries)` and
`net = forward_rate - reverse_rate`, every reactant index holds `-net` and
every product index holds `net`. -/
theorem C1_reaction_rate_mass_action (s : SessionState) (C : List ℚ)
    (t kf K : ℚ)
    (hC : C.length = s.reactants.length + s.products.length)
    (hkf : 0 ≤ kf) (hK : 0 < K) :
    ∃ d, reaction_rate s C t kf K = .ok d ∧
      d.length = C.length ∧
      (∀ i, i < s.reactants.length →
        d.getD i 0 =
          -(kf * (C.take s.reactants.length).prod -
            kf / K * (C.drop s.reactants.length).prod)) ∧
      (∀ i, s.reactants.length ≤ i → i < C.length →
        d.getD i 0 =
          kf * (C.take s.reactants.length).prod -
            kf / K * (C.drop s.reactants.length).prod) := by
  refine ⟨_, reaction_rate_ok s C t kf K (ne_of_gt hK), ?_, ?_, ?_⟩
  · simp [hC]
  · intro i hi
    rw [List.getD_append _ _ _ _ (by simpa using hi), getD_replicate_lt _ _ _ hi]
    ring
  · intro i hi1 hi2
    rw [List.getD_append_right _ _ _ _ (by simpa using hi1)]
    rw [List.length_replicate]
    exact getD_replicate_lt _ _ _ (by rw [hC] at hi2; omega)

theorem C1_witness :
    (([1, 0] : List ℚ).length = sAB.reactants.length + sAB.products.length ∧
     (0 : ℚ) ≤ 1 ∧ (0 : ℚ) < 1) ∧
    (∃ d, reaction_rate sAB [1, 0] 0 1 1 = .ok d ∧
      d.length = ([1, 0] : List ℚ).length ∧
      (∀ i, i < sAB.reactants.length →
        d.getD i 0 =
          -(1 * (([1, 0] : List ℚ).take sAB.reactants.length).prod -
            1 / 1 * (([1, 0] : List ℚ).drop sAB.reactants.length).prod)) ∧
      (∀ i, sAB.reactants.length ≤ i → i < ([1, 0] : List ℚ).length →
        d.getD i 0 =
          1 * (([1, 0] : List ℚ).take sAB.reactants.length).prod -
            1 / 1 * (([1, 0] : List ℚ).drop sAB.reactants.length).prod)) :=
  ⟨⟨by simp [sAB], by norm_num, by norm_num⟩,
    C1_reaction_rate_mass_action sAB [1, 0] 0 1 1 (by simp [sAB]) (by norm_num)
      (by norm_num)⟩

/-- C7: with `kf = 0` (and `K > 0`) the derivative vector is identically
zero and the computed trajectory is constant at the initial concentrations
at every one of the 1000 sample times. -/
theorem C7_kf_zero_constant_trajectory (s : SessionState) (C : List ℚ)
    (t K d : ℚ) (hK : 0 < K) (hr : s.reactants ≠ []) (hp : s.products ≠ []) :
    reaction_rate s C t 0 K =
      .ok (List.replicate (s.reactants.length + s.products.length) 0) ∧
    run_simulation s 0 K d =
      .ok (List.replicate 1000
        (s.reactants.map Species.initial ++ s.products.map Species.initial)) := by
  have hzero : ∀ (y : List ℚ) (t' : ℚ),
      reaction_rate s y t' 0 K =
        .ok (List.replicate (s.reactants.length + s.products.length) 0) := by
    intro y t'
    rw [reaction_rate_ok s y t' 0 K (ne_of_gt hK)]
    simp
  constructor
  · exact hzero C t
  · have hcond : ¬(s.reactants = [] ∨ s.products = []) := by
      rintro (h | h)
      exacts [hr h, hp h]
    rw [run_simulation_eq s 0 K d hcond]
    have h := odeint_zero_rhs (fun C' τ => reaction_rate s C' τ 0 K)
      (s.reactants.length + s.products.length) (fun y t' => hzero y t')
      (s.reactants.map Species.initial ++ s.products.map Species.initial)
      (by simp) (linspace 0 d 1000)
    rw [linspace_length] at h
    exact h

theorem C7_witness :
    ((0 : ℚ) < 1 ∧ sAB.reactants ≠ [] ∧ sAB.products ≠ []) ∧
    (reaction_rate sAB [1, 0] 0 0 1 =
      .ok (List.replicate (sAB.reactants.length + sAB.products.length) 0) ∧
     run_simulation sAB 0 1 10 =
      .ok (List.replicate 1000
        (sAB.reactants.map Species.initial ++ sAB.products.map Species.initial))) :=
  ⟨⟨by norm_num, by simp [sAB], by simp [sAB]⟩,
    C7_kf_zero_constant_trajectory sAB [1, 0] 0 1 10 (by norm_num)
      (by simp [sAB]) (by simp [sAB])⟩

/-- C3 (counterexample): a run with `duration = 0` does not fail with
`InvalidArgument` (nor any other error): the handler performs no duration
validation and returns a full 1000-row trajectory, every row the initial
state, because all 1000 sample times coincide at `0`. -/
theorem C3_counterexample :
    run_simulation sAB 1 1 0 = .ok (List.replicate 1000 [(1 : ℚ), 0]) := by
  have hcond : ¬(sAB.reactants = [] ∨ sAB.products = []) := by simp [sAB]
  rw [run_simulation_eq sAB 1 1 0 hcond]
  have hinit : sAB.reactants.map Species.initial ++
      sAB.products.map Species.initial = [(1 : ℚ), 0] := by
    simp [sAB]
  rw [hinit, linspace_zero_zero]
  have h := odeint_all_eq (fun C τ => reaction_rate sAB C τ 1 1)
    [(1 : ℚ), 0] 0 [-1, 1] (by norm_num [reaction_rate, sAB]) (by norm_num)
    (List.replicate 1000 0) (fun t ht => List.eq_of_mem_replicate ht)
  rw [List.length_replicate] at h
  exact h

/-- C3 (amended): the handler performs no validation of the duration or of
the sample count: the sample count is fixed at 1000, and a call with
`duration ≤ 0` (impossible through the UI widget, whose minimum is `1.0`)
still returns a 1000-row trajectory instead of failing. -/
theorem C3_amended_no_duration_validation (s : SessionState) (kf K d : ℚ)
    (hr : s.reactants ≠ []) (hp : s.products ≠ []) (hK : K ≠ 0) (hd : d ≤ 0) :
    ∃ rows, run_simulation s kf K d = .ok rows ∧ rows.length = 1000 := by
  have hcond : ¬(s.reactants = [] ∨ s.products = []) := by
    rintro (h | h)
    exacts [hr h, hp h]
  rw [run_simulation_eq s kf K d hcond]
  obtain ⟨rows, hrows, hlen, -⟩ :=
    odeint_inv (fun C τ => reaction_rate s C τ kf K) (fun _ => True)
      (fun y t t' _ => ⟨_, reaction_rate_ok s y t kf K hK, trivial⟩)
      (linspace 0 d 1000)
      (s.reactants.map Species.initial ++ s.products.map Species.initial)
      trivial
  exact ⟨rows, hrows, by rw [hlen, linspace_length]⟩

theorem C3_amended_witness :
    (sAB.reactants ≠ [] ∧ sAB.products ≠ [] ∧ (1 : ℚ) ≠ 0 ∧ (0 : ℚ) ≤ 0) ∧
    ∃ rows, run_simulation sAB 1 1 0 = .ok rows ∧ rows.length = 1000 :=
  ⟨⟨by simp [sAB], by simp [sAB], by norm_num, le_refl 0⟩,
    C3_amended_no_duration_validation sAB 1 1 0 (by simp [sAB]) (by simp [sAB])
      (by norm_num) (le_refl 0)⟩

/-- C4: every (successful) run samples exactly 1000 times, evenly spaced
over `[0, duration]` with both endpoints included, and the trajectory has
one row per sample time, each row a full concentration vector of length
`n_reactants + n_products` in the same reactant-then-product layout as the
input. -/
theorem C4_sampling_and_row_layout (s : SessionState) (kf K d : ℚ)
    (hr : s.reactants ≠ []) (hp : s.products ≠ []) (hK : K ≠ 0) :
    (linspace 0 d 1000).length = 1000 ∧
    (∀ i, i < 1000 → (linspace 0 d 1000).getD i 0 = d * i / 999) ∧
    (linspace 0 d 1000).getD 0 0 = 0 ∧
    (linspace 0 d 1000).getD 999 0 = d ∧
    (∀ i, i + 1 < 1000 →
      (linspace 0 d 1000).getD (i + 1) 0 - (linspace 0 d 1000).getD i 0 =
        d / 999) ∧
    ∃ rows, run_simulation s kf K d = .ok rows ∧ rows.length = 1000 ∧
      ∀ r ∈ rows, r.length = s.reactants.length + s.products.length := by
  have hform : ∀ i, i < 1000 → (linspace 0 d 1000).getD i 0 = d * i / 999 := by
    intro i hi
    rw [linspace_getD 0 d 1000 i hi]
    norm_num
  refine ⟨linspace_length 0 d 1000, hform, ?_, ?_, ?_, ?_⟩
  · rw [hform 0 (by norm_num)]
    norm_num
  · rw [hform 999 (by norm_num)]
    norm_num
  · intro i hi
    rw [hform (i + 1) hi, hform i (by omega)]
    push_cast
    ring
  · have hcond : ¬(s.reactants = [] ∨ s.products = []) := by
      rintro (h | h)
      exacts [hr h, hp h]
    rw [run_simulation_eq s kf K d hcond]
    obtain ⟨rows, hrows, hlen, hall⟩ :=
      odeint_inv (fun C τ => reaction_rate s C τ kf K)
        (fun y => y.length = s.reactants.length + s.products.length)
        (fun y t t' hy => by
          refine ⟨_, reaction_rate_ok s y t kf K hK, ?_⟩
          simp [hy])
        (linspace 0 d 1000)
        (s.reactants.map Species.initial ++ s.products.map Species.initial)
        (by simp)
    exact ⟨rows, hrows, by rw [hlen, linspace_length], hall⟩

theorem C4_witness :
    (sAB.reactants ≠ [] ∧ sAB.products ≠ [] ∧ (1 : ℚ) ≠ 0) ∧
    ((linspace 0 10 1000).length = 1000 ∧
     (∀ i, i < 1000 → (linspace 0 10 1000).getD i 0 = 10 * i / 999) ∧
     (linspace 0 10 1000).getD 0 0 = 0 ∧
     (linspace 0 10 1000).getD 999 0 = 10 ∧
     (∀ i, i + 1 < 1000 →
       (linspace 0 10 1000).getD (i + 1) 0 - (linspace 0 10 1000).getD i 0 =
         10 / 999) ∧
     ∃ rows, run_simulation sAB 1 1 10 = .ok rows ∧ rows.length = 1000 ∧
       ∀ r ∈ rows, r.length = sAB.reactants.length + sAB.products.length) :=
  ⟨⟨by simp [sAB], by simp [sAB], by norm_num⟩,
    C4_sampling_and_row_layout sAB 1 1 10 (by simp [sAB]) (by simp [sAB])
      (by norm_num)⟩

/-- C5: in the one-reactant/one-product case the entries of every
derivative vector sum to zero, and along any computed trajectory every row
sums to the initial total `reactant[0] + product[0]` (exactly, hence within
the spec's `1e-6` tolerance). -/
theorem C5_mass_conservation (s : SessionState) (kf K d : ℚ)
    (hr1 : s.reactants.length = 1) (hp1 : s.products.length = 1)
    (hkf : 0 ≤ kf) (hK : 0 < K) :
    (∀ C t, ∃ dvec, reaction_rate s C t kf K = .ok dvec ∧ dvec.sum = 0) ∧
    ∀ rows, run_simulation s kf K d = .ok rows →
      ∀ r ∈ rows,
        r.sum = (s.reactants.map Species.initial ++
                 s.products.map Species.initial).sum := by
  have hsum : ∀ (C : List ℚ) (t : ℚ), ∃ dvec,
      reaction_rate s C t kf K = .ok dvec ∧ dvec.sum = 0 := by
    intro C t
    refine ⟨_, reaction_rate_ok s C t kf K (ne_of_gt hK), ?_⟩
    rw [hr1, hp1]
    simp
  refine ⟨hsum, ?_⟩
  intro rows hrows r hr
  have hrne : s.reactants ≠ [] := List.length_pos.mp (by omega)
  have hpne : s.products ≠ [] := List.length_pos.mp (by omega)
  have hcond : ¬(s.reactants = [] ∨ s.products = []) := by
    rintro (h | h)
    exacts [hrne h, hpne h]
  obtain ⟨rows', hrows', hlen', hall'⟩ :=
    odeint_inv (fun C τ => reaction_rate s C τ kf K)
      (fun y => y.length = 2 ∧
        y.sum = (s.reactants.map Species.initial ++
                 s.products.map Species.initial).sum)
      (fun y t t' hy => by
        obtain ⟨dvec, hd, hds⟩ := hsum y t
        have hdval := reaction_rate_ok s y t kf K (ne_of_gt hK)
        rw [hdval] at hd
        have hdev : dvec =
            List.replicate s.reactants.length
              (-(kf * (y.take s.reactants.length).prod) +
                kf / K * (y.drop s.reactants.length).prod) ++
            List.replicate s.products.length
              (kf * (y.take s.reactants.length).prod -
                kf / K * (y.drop s.reactants.length).prod) :=
          (Except.ok.inj hd).symm
        have hdlen : dvec.length = 2 := by
          rw [hdev]
          simp [hr1, hp1]
        refine ⟨dvec, ?_, ?_, ?_⟩
        · show reaction_rate s y t kf K = Except.ok dvec
          rw [hdval, hdev]
        · rw [List.length_zipWith, hy.1, hdlen]
          simp
        · rw [zipWith_step_sum _ y dvec (by rw [hdlen, hy.1]), hy.2, hds]
          ring)
      (linspace 0 d 1000)
      (s.reactants.map Species.initial ++ s.products.map Species.initial)
      (by constructor
          · simp [hr1, hp1]
          · rfl)
  have hsame : (Except.ok rows : Except SimError (List (List ℚ))) =
      Except.ok rows' := by
    rw [← hrows, ← hrows', run_simulation_eq s kf K d hcond]
  obtain rfl : rows = rows' := Except.ok.inj hsame
  exact (hall' r hr).2

theorem C5_witness :
    (sAB.reactants.length = 1 ∧ sAB.products.length = 1 ∧
     (0 : ℚ) ≤ 1 ∧ (0 : ℚ) < 1) ∧
    ((∀ C t, ∃ dvec, reaction_rate sAB C t 1 1 = .ok dvec ∧ dvec.sum = 0) ∧
     ∀ rows, run_simulation sAB 1 1 10 = .ok rows →
       ∀ r ∈ rows,
         r.sum = (sAB.reactants.map Species.initial ++
                  sAB.products.map Species.initial).sum) :=
  ⟨⟨by simp [sAB], by simp [sAB], by norm_num, by norm_num⟩,
    C5_mass_conservation sAB 1 1 10 (by simp [sAB]) (by simp [sAB])
      (by norm_num) (by norm_num)⟩
